import Mathlib

/-!
Shallow embedding of the habit-streak calculator of `src/app.py`
(function `calculate_streaks`, lines 174-202), together with the date
parsing it performs via `datetime.strptime(date, "%Y-%m-%d").date()`.

Calendar dates are modelled as proleptic Gregorian ordinals (an integer
day count), so that "exactly one calendar day later" is exactly `+ 1`,
matching `(d2 - d1).days == 1` in the source.  Python dicts are modelled
as association lists in iteration order; the set of completed dates is
kept as a strictly sorted `List ℤ`.  The clock read `datetime.now().date()` is an explicit
`today` parameter.  A `ValueError` raised by `strptime` on a malformed
date key (the spec's `FormatError`) is modelled with `Except`.
-/

namespace HabitApp

/-- The error raised for a malformed date key: Python's `ValueError`
from `strptime`, called `FormatError` by the design spec. -/
inductive FormatError where
  | malformedDate
  deriving DecidableEq

/-- A single day's record, habit name to completion flag (a Python dict,
modelled as its association list). -/
abbrev DayRecord := List (String × Bool)

/-- The habit log: ISO date string to day record (a Python dict, modelled
as its association list in iteration order). -/
abbrev HabitLog := List (String × DayRecord)

/-- Python truthiness of `data.get(habit_name)` on a boolean-valued
record: the record maps the habit to `True`. -/
def truthyGet (data : DayRecord) (habit : String) : Bool :=
  (List.lookup habit data).getD false

/-- Numeric value of a decimal digit character, `none` otherwise. -/
def digitVal (c : Char) : Option ℕ :=
  if c.isDigit then some (c.toNat - 48) else none

/-- Whether `y` is a Gregorian leap year (`calendar.isleap` logic used by
`datetime`). -/
def isLeapYear (y : ℕ) : Bool :=
  (y % 4 == 0 && y % 100 != 0) || y % 400 == 0

/-- Number of days in month `m` of a year with leap flag `leap`. -/
def monthLen (leap : Bool) (m : ℕ) : ℕ :=
  if m = 2 then (if leap then 29 else 28)
  else if m = 4 ∨ m = 6 ∨ m = 9 ∨ m = 11 then 30
  else 31

/-- Number of days in the months strictly before month `m`. -/
def daysBeforeMonth (leap : Bool) (m : ℕ) : ℕ :=
  (List.range (m - 1)).foldl (fun acc i => acc + monthLen leap (i + 1)) 0

/-- Proleptic Gregorian ordinal of the date `y-m-d` (the day count
`datetime.date.toordinal` uses, so differences count calendar days). -/
def toOrdinal (y m d : ℕ) : ℤ :=
  365 * ((y : ℤ) - 1) + ((y : ℤ) - 1) / 4 - ((y : ℤ) - 1) / 100
    + ((y : ℤ) - 1) / 400 + (daysBeforeMonth (isLeapYear y) m : ℤ) + (d : ℤ)

/-- Reads one or two leading decimal digits (the `%m` / `%d` fields of
`strptime` accept either), returning the value and the rest. -/
def read12 : List Char → Option (ℕ × List Char)
  | c1 :: c2 :: rest =>
    match digitVal c1, digitVal c2 with
    | some a, some b => some (10 * a + b, rest)
    | some a, none => some (a, c2 :: rest)
    | none, _ => none
  | [c1] => (digitVal c1).map (fun a => (a, ([] : List Char)))
  | [] => none

/-- Parse of `datetime.strptime(s, "%Y-%m-%d").date()`: a four-digit
year, one- or two-digit month and day separated by hyphens, nothing
else, and the triple must be a valid calendar date of year at least 1.
Returns the date's ordinal, or `none` where Python raises `ValueError`. -/
def parseDate (s : String) : Option ℤ :=
  match s.toList with
  | y1 :: y2 :: y3 :: y4 :: '-' :: rest =>
    match digitVal y1, digitVal y2, digitVal y3, digitVal y4 with
    | some a, some b, some c, some d =>
      let y := 1000 * a + 100 * b + 10 * c + d
      match read12 rest with
      | some (m, rest2) =>
        match rest2 with
        | '-' :: rest3 =>
          match read12 rest3 with
          | some (dd, []) =>
            if 1 ≤ y ∧ 1 ≤ m ∧ m ≤ 12 ∧ 1 ≤ dd ∧ dd ≤ monthLen (isLeapYear y) m then
              some (toOrdinal y m dd)
            else none
          | _ => none
        | _ => none
      | none => none
    | _, _, _, _ => none
  | _ => none

/-- Sorted insertion without duplicates.  A strictly sorted list is the
canonical representation of the Python set `dates_completed`, and at the
same time of `sorted_dates = sorted(list(dates_completed))`. -/
def insertSorted (d : ℤ) : List ℤ → List ℤ
  | [] => [d]
  | x :: rest =>
    if d < x then d :: x :: rest
    else if d = x then x :: rest
    else x :: insertSorted d rest

/-- The set comprehension of line 177 of the source:
`{strptime(date).date() for date, data in habit_logs.items() if data.get(habit_name)}`,
already in the sorted form taken at line 179.  Entries whose record does
not mark the habit truthy are filtered before any parsing happens; a
truthy entry with an unparseable key raises. -/
def datesCompleted (log : HabitLog) (habit : String) : Except FormatError (List ℤ) :=
  match log with
  | [] => Except.ok []
  | (date, data) :: rest =>
    match datesCompleted rest habit with
    | Except.error e => Except.error e
    | Except.ok s =>
      if truthyGet data habit then
        match parseDate date with
        | some d => Except.ok (insertSorted d s)
        | none => Except.error FormatError.malformedDate
      else Except.ok s

/-- Fuel-indexed unfolding of the backward-counting `while` loop. -/
def countBackF (S : List ℤ) : ℕ → ℤ → ℕ
  | 0, _ => 0
  | f + 1, d => if d ∈ S then countBackF S f (d - 1) + 1 else 0

/-- The `while check_date in dates_completed` loop of lines 199-201:
the number of consecutive completed days ending at `d`.  `S.length + 1`
fuel always suffices, since the run consists of distinct members of `S`. -/
def countBack (S : List ℤ) (d : ℤ) : ℕ :=
  countBackF S (S.length + 1) d

/-- The `for i in range(1, len(sorted_dates))` loop of lines 184-189,
threading the previous date, the running run length and the best seen. -/
def longestLoop : List ℤ → ℤ → ℕ → ℕ → ℕ
  | [], _, _, best => best
  | d :: rest, prev, cur, best =>
    longestLoop rest d (if d - prev = 1 then cur + 1 else 1)
      (max best (if d - prev = 1 then cur + 1 else 1))

/-- Lines 180-189 of the source: scan the sorted completed dates for the
longest run of consecutive days (`longest_streak`). -/
def longestStreakOf (S : List ℤ) : ℕ :=
  match S with
  | [] => 0
  | d :: rest => longestLoop rest d 1 1

/-- Lines 174-202 of the source, `calculate_streaks(habit_logs, habit_name)`,
with the clock read `datetime.now().date()` made an explicit `today`
parameter.  Returns `(current_streak, longest_streak)`. -/
def calculate_streaks (habit_logs : HabitLog) (habit_name : String) (today : ℤ) :
    Except FormatError (ℕ × ℕ) :=
  if habit_logs.isEmpty then Except.ok (0, 0)
  else
    match datesCompleted habit_logs habit_name with
    | Except.error e => Except.error e
    | Except.ok dates =>
      if dates = [] then Except.ok (0, 0)
      else
        let longest := longestStreakOf dates
        if today ∈ dates then Except.ok (countBack dates today, longest)
        else if today - 1 ∈ dates then Except.ok (countBack dates (today - 1), longest)
        else Except.ok (0, longest)

/-- How many entries of `S` are at most `d`; the termination measure of
the backward-counting loop. -/
def belowCount (S : List ℤ) (d : ℤ) : ℕ :=
  S.countP (fun x => decide (x ≤ d))

/-- Maximum of `f` over the entries of a list, `0` for the empty list. -/
def maxOver (l : List ℤ) (f : ℤ → ℕ) : ℕ :=
  l.foldr (fun d acc => max (f d) acc) 0

/-- The part of `calculate_streaks` below line 176: everything the
function does once the completed-date set is determined.  Factoring it
out lets equal completed-date sets be traded for equal results. -/
def streaksFromDates (dc : Except FormatError (List ℤ)) (today : ℤ) :
    Except FormatError (ℕ × ℕ) :=
  match dc with
  | Except.error e => Except.error e
  | Except.ok dates =>
    if dates = [] then Except.ok (0, 0)
    else
      let longest := longestStreakOf dates
      if today ∈ dates then Except.ok (countBack dates today, longest)
      else if today - 1 ∈ dates then Except.ok (countBack dates (today - 1), longest)
      else Except.ok (0, longest)

/-- Removes from every day record the entries that map `habit` to
`False`, turning "marked not done" into "absent". -/
def dropFalse (habit : String) (log : HabitLog) : HabitLog :=
  log.map (fun p => (p.1, p.2.filter (fun q => !(q.1 == habit && !q.2))))

/-! ## Specification-side notions

The following predicates formalise the spec's language ("marked
complete", "maximal run of consecutive calendar days", the prescription
for `current_streak`); the claims compare `calculate_streaks` against
them. -/

/-- The habit is marked complete in `log` on the calendar day `x`: some
entry's record maps the habit to `True` and its date key parses to `x`. -/
def markedComplete (log : HabitLog) (habit : String) (x : ℤ) : Prop :=
  ∃ p ∈ log, truthyGet p.2 habit = true ∧ parseDate p.1 = some x

/-- The interval of days from `a` to `b` is a maximal run of consecutive
calendar days all satisfying `P`: it is nonempty, every day in it
satisfies `P`, and it extends neither downward nor upward. -/
def isMaximalRun (P : ℤ → Prop) (a b : ℤ) : Prop :=
  a ≤ b ∧ (∀ x, a ≤ x → x ≤ b → P x) ∧ ¬ P (a - 1) ∧ ¬ P (b + 1)

/-- The number `n` is the maximum, over all days, of the length of a
maximal run of consecutive days satisfying `P`: every maximal run has
length at most `n`, some maximal run has length exactly `n` as soon as
`P` holds anywhere, and `n = 0` when `P` holds nowhere. -/
def longestCorrect (P : ℤ → Prop) (n : ℕ) : Prop :=
  (∀ a b, isMaximalRun P a b → (b - a + 1).toNat ≤ n) ∧
    ((∃ x, P x) → ∃ a b, isMaximalRun P a b ∧ (b - a + 1).toNat = n) ∧
    ((¬ ∃ x, P x) → n = 0)

/-- The number `n` is the current streak the spec prescribes for the
reference day `today`: if `today` satisfies `P` it is the count of
consecutive satisfied days ending at `today`; otherwise if `today - 1`
satisfies `P` it is the count ending at `today - 1`; otherwise it is 0. -/
def currentCorrect (P : ℤ → Prop) (today : ℤ) (n : ℕ) : Prop :=
  (P today → (∀ j : ℕ, j < n → P (today - j)) ∧ ¬ P (today - n)) ∧
    (¬ P today → P (today - 1) →
      (∀ j : ℕ, j < n → P (today - 1 - j)) ∧ ¬ P (today - 1 - n)) ∧
    (¬ P today → ¬ P (today - 1) → n = 0)

/-! ## Basic lemmas about the completed-date extraction -/

theorem mem_insertSorted (d x : ℤ) (l : List ℤ) :
    x ∈ insertSorted d l ↔ x = d ∨ x ∈ l := by
  induction l with
  | nil => simp [insertSorted]
  | cons y rest ih =>
    rw [insertSorted]
    by_cases h1 : d < y
    · rw [if_pos h1]
      simp [List.mem_cons]
    · rw [if_neg h1]
      by_cases h2 : d = y
      · rw [if_pos h2]
        subst h2
        simp only [List.mem_cons]
        tauto
      · rw [if_neg h2]
        simp only [List.mem_cons, ih]
        tauto

theorem sorted_insertSorted (d : ℤ) (l : List ℤ) (h : List.Sorted (· < ·) l) :
    List.Sorted (· < ·) (insertSorted d l) := by
  induction l with
  | nil => simp [insertSorted]
  | cons y rest ih =>
    rw [List.sorted_cons] at h
    obtain ⟨hy, hrest⟩ := h
    rw [insertSorted]
    by_cases h1 : d < y
    · rw [if_pos h1]
      rw [List.sorted_cons]
      refine ⟨?_, ?_⟩
      · intro b hb
        rcases List.mem_cons.mp hb with rfl | hb2
        · exact h1
        · exact lt_trans h1 (hy b hb2)
      · rw [List.sorted_cons]
        exact ⟨hy, hrest⟩
    · rw [if_neg h1]
      by_cases h2 : d = y
      · rw [if_pos h2]
        rw [List.sorted_cons]
        exact ⟨hy, hrest⟩
      · rw [if_neg h2]
        rw [List.sorted_cons]
        refine ⟨?_, ih hrest⟩
        intro b hb
        rcases (mem_insertSorted d b rest).mp hb with rfl | hb2
        · omega
        · exact hy b hb2

theorem markedComplete_cons (date : String) (data : DayRecord) (rest : HabitLog)
    (habit : String) (x : ℤ) :
    markedComplete ((date, data) :: rest) habit x ↔
      (truthyGet data habit = true ∧ parseDate date = some x) ∨
        markedComplete rest habit x := by
  constructor
  · rintro ⟨p, hp, htr, hpd⟩
    rcases List.mem_cons.mp hp with rfl | hp2
    · exact Or.inl ⟨htr, hpd⟩
    · exact Or.inr ⟨p, hp2, htr, hpd⟩
  · rintro (⟨htr, hpd⟩ | ⟨p, hp2, htr, hpd⟩)
    · exact ⟨(date, data), List.mem_cons_self _ _, htr, hpd⟩
    · exact ⟨p, List.mem_cons_of_mem _ hp2, htr, hpd⟩

theorem datesCompleted_sorted (log : HabitLog) (habit : String) (S : List ℤ)
    (h : datesCompleted log habit = Except.ok S) : List.Sorted (· < ·) S := by
  induction log generalizing S with
  | nil =>
    rw [datesCompleted] at h
    cases h
    exact List.sorted_nil
  | cons p rest ih =>
    obtain ⟨date, data⟩ := p
    rw [datesCompleted] at h
    cases hdc : datesCompleted rest habit with
    | error e => rw [hdc] at h; exact Except.noConfusion h
    | ok s =>
      rw [hdc] at h
      simp only at h
      by_cases ht : truthyGet data habit = true
      · rw [if_pos ht] at h
        cases hp : parseDate date with
        | some d =>
          rw [hp] at h
          simp only at h
          cases h
          exact sorted_insertSorted _ _ (ih _ hdc)
        | none => rw [hp] at h; exact Except.noConfusion h
      · rw [if_neg ht] at h
        cases h
        exact ih _ hdc

theorem datesCompleted_mem (log : HabitLog) (habit : String) (S : List ℤ)
    (h : datesCompleted log habit = Except.ok S) (x : ℤ) :
    x ∈ S ↔ markedComplete log habit x := by
  induction log generalizing S with
  | nil =>
    rw [datesCompleted] at h
    cases h
    simp [markedComplete]
  | cons p rest ih =>
    obtain ⟨date, data⟩ := p
    rw [datesCompleted] at h
    cases hdc : datesCompleted rest habit with
    | error e => rw [hdc] at h; exact Except.noConfusion h
    | ok s =>
      rw [hdc] at h
      simp only at h
      by_cases ht : truthyGet data habit = true
      · rw [if_pos ht] at h
        cases hp : parseDate date with
        | some d =>
          rw [hp] at h
          simp only at h
          cases h
          rw [mem_insertSorted, markedComplete_cons, ih _ hdc, hp]
          simp only [ht, true_and, Option.some.injEq]
          tauto
        | none => rw [hp] at h; exact Except.noConfusion h
      · rw [if_neg ht] at h
        cases h
        rw [markedComplete_cons, ih _ hdc]
        simp [ht]

theorem datesCompleted_error (log : HabitLog) (habit : String) :
    datesCompleted log habit = Except.error FormatError.malformedDate ↔
      ∃ p ∈ log, truthyGet p.2 habit = true ∧ parseDate p.1 = none := by
  induction log with
  | nil => simp [datesCompleted]
  | cons p rest ih =>
    obtain ⟨date, data⟩ := p
    rw [datesCompleted]
    cases hdc : datesCompleted rest habit with
    | error e =>
      simp only
      cases e
      constructor
      · intro _
        obtain ⟨q, hq, h1, h2⟩ := ih.mp hdc
        exact ⟨q, List.mem_cons_of_mem _ hq, h1, h2⟩
      · intro _
        trivial
    | ok s =>
      simp only
      have hrest : ¬ ∃ q ∈ rest, truthyGet q.2 habit = true ∧ parseDate q.1 = none := by
        intro hcon
        have hcon2 := ih.mpr hcon
        rw [hdc] at hcon2
        exact Except.noConfusion hcon2
      by_cases ht : truthyGet data habit = true
      · rw [if_pos ht]
        cases hp : parseDate date with
        | some d =>
          simp only
          constructor
          · intro hcontra
            exact Except.noConfusion hcontra
          · rintro ⟨q, hq, h1, h2⟩
            rcases List.mem_cons.mp hq with rfl | hq2
            · rw [hp] at h2; exact Option.noConfusion h2
            · exact absurd ⟨q, hq2, h1, h2⟩ hrest
        | none =>
          simp only
          constructor
          · intro _
            exact ⟨(date, data), List.mem_cons_self _ _, ht, hp⟩
          · intro _
            trivial
      · rw [if_neg ht]
        constructor
        · intro hcontra
          exact Except.noConfusion hcontra
        · rintro ⟨q, hq, h1, h2⟩
          rcases List.mem_cons.mp hq with rfl | hq2
          · exact absurd h1 ht
          · exact absurd ⟨q, hq2, h1, h2⟩ hrest

/-! ## The backward-counting while loop -/

theorem countBackF_not_mem (S : List ℤ) (f : ℕ) (d : ℤ) (h : d ∉ S) :
    countBackF S f d = 0 := by
  cases f with
  | zero => rfl
  | succ g => rw [countBackF, if_neg h]

theorem countP_le_mono (p q : ℤ → Bool) (h : ∀ x, p x = true → q x = true)
    (l : List ℤ) : l.countP p ≤ l.countP q := by
  induction l with
  | nil => simp
  | cons x rest ih =>
    rw [List.countP_cons, List.countP_cons]
    by_cases hp : p x = true
    · rw [if_pos hp, if_pos (h x hp)]
      omega
    · rw [if_neg hp]
      by_cases hq : q x = true
      · rw [if_pos hq]
        omega
      · rw [if_neg hq]
        omega

theorem belowCount_lt (S : List ℤ) (d : ℤ) (h : d ∈ S) :
    belowCount S (d - 1) < belowCount S d := by
  induction S with
  | nil => cases h
  | cons x rest ih =>
    have hmono := countP_le_mono (fun z => decide (z ≤ d - 1)) (fun z => decide (z ≤ d))
      (fun z hz => by
        simp only [decide_eq_true_eq] at hz ⊢
        omega) rest
    rw [belowCount, List.countP_cons, belowCount, List.countP_cons]
    simp only [decide_eq_true_eq]
    rcases List.mem_cons.mp h with rfl | h2
    · rw [if_neg (by omega), if_pos (by omega)]
      rw [belowCount, belowCount] at *
      omega
    · have ih2 := ih h2
      rw [belowCount, belowCount] at ih2
      by_cases hx : x ≤ d - 1
      · rw [if_pos hx, if_pos (by omega)]
        omega
      · rw [if_neg hx]
        by_cases hx2 : x ≤ d
        · rw [if_pos hx2]
          omega
        · rw [if_neg hx2]
          omega

theorem belowCount_le_length (S : List ℤ) (d : ℤ) : belowCount S d ≤ S.length :=
  List.countP_le_length _

theorem countBackF_stable (S : List ℤ) :
    ∀ (f g : ℕ) (d : ℤ), belowCount S d ≤ f → belowCount S d ≤ g →
      countBackF S f d = countBackF S g d := by
  intro f
  induction f with
  | zero =>
    intro g d hf hg
    have hd : d ∉ S := by
      intro hmem
      have := belowCount_lt S d hmem
      omega
    rw [countBackF_not_mem S 0 d hd, countBackF_not_mem S g d hd]
  | succ f2 ih =>
    intro g d hf hg
    by_cases hd : d ∈ S
    · have hlt := belowCount_lt S d hd
      cases g with
      | zero => omega
      | succ g2 =>
        rw [countBackF, if_pos hd, countBackF, if_pos hd]
        rw [ih g2 (d - 1) (by omega) (by omega)]
    · rw [countBackF_not_mem S _ _ hd, countBackF_not_mem S _ _ hd]

/-- The defining recurrence of the `while` loop: one completed day at
`d` plus however many consecutive completed days precede it. -/
theorem countBack_rec (S : List ℤ) (d : ℤ) :
    countBack S d = if d ∈ S then countBack S (d - 1) + 1 else 0 := by
  by_cases hd : d ∈ S
  · rw [if_pos hd, countBack, countBackF, if_pos hd, countBack]
    have h1 := belowCount_lt S d hd
    have h2 := belowCount_le_length S d
    have h3 := belowCount_le_length S (d - 1)
    rw [countBackF_stable S S.length (S.length + 1) (d - 1) (by omega) (by omega)]
  · rw [if_neg hd, countBack, countBackF_not_mem S _ _ hd]

/-- The loop counts a gap-free run: every one of the `n` days it counts
is completed, and the day just below the run is not. -/
theorem countBack_run (S : List ℤ) :
    ∀ (n : ℕ) (d : ℤ), countBack S d = n →
      (∀ j : ℕ, j < n → (d - (j : ℤ)) ∈ S) ∧ (d - (n : ℤ)) ∉ S := by
  intro n
  induction n with
  | zero =>
    intro d hn
    refine ⟨fun j hj => absurd hj (Nat.not_lt_zero j), ?_⟩
    intro hmem
    simp only [Nat.cast_zero, sub_zero] at hmem
    rw [countBack_rec, if_pos hmem] at hn
    omega
  | succ m ih =>
    intro d hn
    have hd : d ∈ S := by
      by_contra hd
      rw [countBack_rec, if_neg hd] at hn
      omega
    rw [countBack_rec, if_pos hd] at hn
    obtain ⟨ih1, ih2⟩ := ih (d - 1) (by omega)
    constructor
    · intro j hj
      cases j with
      | zero => simpa using hd
      | succ k =>
        have hk := ih1 k (by omega)
        have heq : d - ((k + 1 : ℕ) : ℤ) = d - 1 - (k : ℤ) := by
          push_cast
          ring
        rw [heq]
        exact hk
    · have heq : d - ((m + 1 : ℕ) : ℤ) = d - 1 - (m : ℤ) := by
        push_cast
        ring
      rw [heq]
      exact ih2

/-- A gap-free run from `a` up to `b` with nothing completed below `a`
is counted exactly: `countBack` at `b` is the run's length. -/
theorem countBack_of_run (S : List ℤ) (a : ℤ) :
    ∀ (n : ℕ) (b : ℤ), b - a = (n : ℤ) →
      (∀ x, a ≤ x → x ≤ b → x ∈ S) → (a - 1) ∉ S →
      countBack S b = n + 1 := by
  intro n
  induction n with
  | zero =>
    intro b hba hall hnot
    have hb : b = a := by omega
    have haS : a ∈ S := hall a le_rfl (by omega)
    rw [hb, countBack_rec, if_pos haS, countBack_rec, if_neg hnot]
  | succ m ih =>
    intro b hba hall hnot
    have hbS : b ∈ S := hall b (by omega) le_rfl
    rw [countBack_rec, if_pos hbS]
    have hih := ih (b - 1) (by omega) (fun x hx1 hx2 => hall x hx1 (by omega)) hnot
    omega

/-! ## The longest-streak scan -/

theorem maxOver_cons (d : ℤ) (l : List ℤ) (f : ℤ → ℕ) :
    maxOver (d :: l) f = max (f d) (maxOver l f) := rfl

theorem maxOver_append (l1 l2 : List ℤ) (f : ℤ → ℕ) :
    maxOver (l1 ++ l2) f = max (maxOver l1 f) (maxOver l2 f) := by
  induction l1 with
  | nil => simp [maxOver]
  | cons d rest ih =>
    rw [List.cons_append, maxOver_cons, ih, maxOver_cons, max_assoc]

theorem le_maxOver (l : List ℤ) (f : ℤ → ℕ) (d : ℤ) (h : d ∈ l) :
    f d ≤ maxOver l f := by
  induction l with
  | nil => cases h
  | cons e rest ih =>
    rw [maxOver_cons]
    rcases List.mem_cons.mp h with rfl | h2
    · exact le_max_left _ _
    · exact le_trans (ih h2) (le_max_right _ _)

theorem maxOver_attained (l : List ℤ) (f : ℤ → ℕ) (h : l ≠ []) :
    ∃ d ∈ l, maxOver l f = f d := by
  induction l with
  | nil => exact absurd rfl h
  | cons d rest ih =>
    cases rest with
    | nil =>
      refine ⟨d, List.mem_cons_self _ _, ?_⟩
      simp [maxOver]
    | cons e rest2 =>
      obtain ⟨b, hb, hbeq⟩ := ih (by simp)
      rw [maxOver_cons]
      rcases le_total (f d) (maxOver (e :: rest2) f) with hle | hle
      · exact ⟨b, List.mem_cons_of_mem _ hb, by rw [max_eq_right hle, hbeq]⟩
      · exact ⟨d, List.mem_cons_self _ _, by rw [max_eq_left hle]⟩

/-- Invariant of the scanning loop over a strictly sorted list: with the
running count equal to the loop count at the previous element and the
best equal to the maximum over the processed prefix, the scan computes
the maximum of the loop count over the whole list. -/
theorem longestLoop_eq (S : List ℤ) (hsort : List.Sorted (· < ·) S) :
    ∀ (L2 L1 : List ℤ) (prev : ℤ), S = L1 ++ prev :: L2 →
      longestLoop L2 prev (countBack S prev) (maxOver (L1 ++ [prev]) (countBack S)) =
        maxOver S (countBack S) := by
  intro L2
  induction L2 with
  | nil =>
    intro L1 prev hS
    rw [longestLoop, hS]
  | cons d rest ih =>
    intro L1 prev hS
    have hs2 : List.Pairwise (· < ·) (L1 ++ prev :: d :: rest) := hS ▸ hsort
    rw [List.pairwise_append] at hs2
    obtain ⟨hp1, hp2, hp12⟩ := hs2
    rw [List.pairwise_cons] at hp2
    obtain ⟨hprev_lt, hp3⟩ := hp2
    rw [List.pairwise_cons] at hp3
    obtain ⟨hd_lt, hp4⟩ := hp3
    have hprev_d : prev < d := hprev_lt d (List.mem_cons_self _ _)
    have hd_mem : d ∈ S := by
      rw [hS]
      simp
    have hcur : (if d - prev = 1 then countBack S prev + 1 else 1) = countBack S d := by
      by_cases hgap : d - prev = 1
      · rw [if_pos hgap, countBack_rec S d, if_pos hd_mem]
        have hpd : d - 1 = prev := by omega
        rw [hpd]
      · rw [if_neg hgap]
        have hd1 : (d - 1) ∉ S := by
          intro hmem
          rw [hS] at hmem
          rcases List.mem_append.mp hmem with hL1 | hcons
          · have := hp12 _ hL1 prev (List.mem_cons_self _ _)
            omega
          · rcases List.mem_cons.mp hcons with heq | hcons2
            · omega
            · rcases List.mem_cons.mp hcons2 with heq | hrest
              · omega
              · have := hd_lt _ hrest
                omega
        rw [countBack_rec S d, if_pos hd_mem, countBack_rec S (d - 1), if_neg hd1]
    rw [longestLoop, hcur]
    have hbest : max (maxOver (L1 ++ [prev]) (countBack S)) (countBack S d) =
        maxOver ((L1 ++ [prev]) ++ [d]) (countBack S) := by
      have hone : maxOver [d] (countBack S) = countBack S d := by
        simp [maxOver]
      rw [maxOver_append (L1 ++ [prev]) [d], hone]
    rw [hbest]
    exact ih (L1 ++ [prev]) d (by rw [hS]; simp)

/-- Lines 180-189 compute the maximum of the backward loop count over
the (strictly sorted) completed dates. -/
theorem longestStreakOf_eq_maxOver (S : List ℤ) (hsort : List.Sorted (· < ·) S) :
    longestStreakOf S = maxOver S (countBack S) := by
  cases S with
  | nil => rfl
  | cons d0 rest =>
    have hne : (d0 - 1) ∉ (d0 :: rest) := by
      intro hmem
      rcases List.mem_cons.mp hmem with heq | hmem2
      · omega
      · have := (List.sorted_cons.mp hsort).1 _ hmem2
        omega
    have h1 : countBack (d0 :: rest) d0 = 1 := by
      rw [countBack_rec, if_pos (List.mem_cons_self _ _), countBack_rec, if_neg hne]
    have h2 : maxOver ([] ++ [d0]) (countBack (d0 :: rest)) = 1 := by
      simp [maxOver, h1]
    have h3 := longestLoop_eq (d0 :: rest) hsort rest [] d0 rfl
    rw [h1, h2] at h3
    rw [longestStreakOf]
    exact h3

/-! ## Case analysis of the whole calculator -/

/-- Every successful result of `calculate_streaks` arises from the
completed-date set `S` through one of the four control paths of the
source: `S` empty, `today` completed, only `today - 1` completed, or
neither. -/
theorem calculate_streaks_cases (log : HabitLog) (habit : String) (today : ℤ)
    (r : ℕ × ℕ) (h : calculate_streaks log habit today = Except.ok r) :
    ∃ S, datesCompleted log habit = Except.ok S ∧
      ((S = [] ∧ r = (0, 0)) ∨
        (S ≠ [] ∧ r.2 = longestStreakOf S ∧
          ((today ∈ S ∧ r.1 = countBack S today) ∨
            (today ∉ S ∧ today - 1 ∈ S ∧ r.1 = countBack S (today - 1)) ∨
            (today ∉ S ∧ today - 1 ∉ S ∧ r.1 = 0)))) := by
  rw [calculate_streaks] at h
  by_cases hemp : log.isEmpty
  · rw [if_pos hemp] at h
    have hlog : log = [] := by
      cases log with
      | nil => rfl
      | cons p rest => exact absurd hemp (by simp)
    subst hlog
    cases h
    exact ⟨[], rfl, Or.inl ⟨rfl, rfl⟩⟩
  · rw [if_neg hemp] at h
    cases hdc : datesCompleted log habit with
    | error e => rw [hdc] at h; exact Except.noConfusion h
    | ok S =>
      rw [hdc] at h
      simp only at h
      refine ⟨S, rfl, ?_⟩
      by_cases hS : S = []
      · rw [if_pos hS] at h
        cases h
        exact Or.inl ⟨hS, rfl⟩
      · rw [if_neg hS] at h
        by_cases ht : today ∈ S
        · rw [if_pos ht] at h
          cases h
          exact Or.inr ⟨hS, rfl, Or.inl ⟨ht, rfl⟩⟩
        · rw [if_neg ht] at h
          by_cases hy : today - 1 ∈ S
          · rw [if_pos hy] at h
            cases h
            exact Or.inr ⟨hS, rfl, Or.inr (Or.inl ⟨ht, hy, rfl⟩)⟩
          · rw [if_neg hy] at h
            cases h
            exact Or.inr ⟨hS, rfl, Or.inr (Or.inr ⟨ht, hy, rfl⟩)⟩

theorem countBack_pos (S : List ℤ) (d : ℤ) (h : d ∈ S) : 1 ≤ countBack S d := by
  rw [countBack_rec, if_pos h]
  omega

theorem longestLoop_ge_best (L : List ℤ) :
    ∀ (prev : ℤ) (cur best : ℕ), best ≤ longestLoop L prev cur best := by
  induction L with
  | nil =>
    intro prev cur best
    rw [longestLoop]
  | cons d rest ih =>
    intro prev cur best
    rw [longestLoop]
    exact le_trans (le_max_left _ _) (ih d _ _)

theorem longestStreakOf_pos (S : List ℤ) (h : S ≠ []) : 1 ≤ longestStreakOf S := by
  cases S with
  | nil => exact absurd rfl h
  | cons d rest =>
    rw [longestStreakOf]
    exact longestLoop_ge_best rest d 1 1

/-- Where the maximum backward count is attained, a maximal run of that
very length sits directly below. -/
theorem maxOver_gives_maximal_run (S : List ℤ) (hne : S ≠ []) :
    ∃ a b, a ≤ b ∧ (∀ x, a ≤ x → x ≤ b → x ∈ S) ∧ (a - 1) ∉ S ∧ (b + 1) ∉ S ∧
      (b - a + 1).toNat = maxOver S (countBack S) := by
  obtain ⟨d0, hd0, heq⟩ := maxOver_attained S (countBack S) hne
  have hc1 : 1 ≤ countBack S d0 := countBack_pos S d0 hd0
  obtain ⟨hrun, hbot⟩ := countBack_run S (countBack S d0) d0 rfl
  refine ⟨d0 - countBack S d0 + 1, d0, by omega, ?_, ?_, ?_, by omega⟩
  · intro x hx1 hx2
    have hj := hrun (d0 - x).toNat (by omega)
    have hx : d0 - ((d0 - x).toNat : ℤ) = x := by omega
    rw [hx] at hj
    exact hj
  · have hx : d0 - (countBack S d0 : ℤ) + 1 - 1 = d0 - (countBack S d0 : ℤ) := by ring
    rw [hx]
    exact hbot
  · intro hmem
    have hrec : countBack S (d0 + 1) = countBack S d0 + 1 := by
      rw [countBack_rec, if_pos hmem]
      have hx : d0 + 1 - 1 = d0 := by ring
      rw [hx]
    have hle := le_maxOver S (countBack S) (d0 + 1) hmem
    omega

/-! ## Only the completed-date set matters -/

/-- The calculator is its completed-date extraction followed by the
streak computations. -/
theorem calculate_streaks_eq_core (log : HabitLog) (habit : String) (today : ℤ) :
    calculate_streaks log habit today =
      streaksFromDates (datesCompleted log habit) today := by
  cases log with
  | nil => rfl
  | cons p rest => rfl

/-- Entries whose record does not mark the habit contribute nothing to
the completed-date extraction, wherever they sit in the log. -/
theorem datesCompleted_skip (l1 l2 : HabitLog) (date : String) (data : DayRecord)
    (habit : String) (hfalse : truthyGet data habit = false) :
    datesCompleted (l1 ++ (date, data) :: l2) habit =
      datesCompleted (l1 ++ l2) habit := by
  induction l1 with
  | nil =>
    rw [List.nil_append, List.nil_append, datesCompleted]
    cases hdc2 : datesCompleted l2 habit with
    | error e => rfl
    | ok s =>
      simp only
      rw [if_neg (by simp [hfalse])]
  | cons q rest ih =>
    obtain ⟨qd, qdata⟩ := q
    rw [List.cons_append, List.cons_append, datesCompleted, datesCompleted, ih]

/-- Two strictly sorted lists with the same members are equal. -/
theorem sorted_eq_of_mem_iff : ∀ (l1 l2 : List ℤ), List.Sorted (· < ·) l1 →
    List.Sorted (· < ·) l2 → (∀ x, x ∈ l1 ↔ x ∈ l2) → l1 = l2
  | [], [], _, _, _ => rfl
  | [], b :: _, _, _, hmem =>
    absurd ((hmem b).mpr (List.mem_cons_self _ _)) (List.not_mem_nil b)
  | _ :: _, [], _, _, hmem =>
    absurd ((hmem _).mp (List.mem_cons_self _ _)) (List.not_mem_nil _)
  | a :: t1, b :: t2, hs1, hs2, hmem => by
    obtain ⟨ha1, ht1⟩ := List.sorted_cons.mp hs1
    obtain ⟨hb2, ht2⟩ := List.sorted_cons.mp hs2
    have hab : a = b := by
      rcases List.mem_cons.mp ((hmem a).mp (List.mem_cons_self _ _)) with h | h
      · exact h
      · rcases List.mem_cons.mp ((hmem b).mpr (List.mem_cons_self _ _)) with h2 | h2
        · omega
        · have hba := hb2 a h
          have hab2 := ha1 b h2
          omega
    subst hab
    have htail : t1 = t2 := sorted_eq_of_mem_iff t1 t2 ht1 ht2 (fun x => by
      constructor
      · intro hx
        rcases List.mem_cons.mp ((hmem x).mp (List.mem_cons_of_mem _ hx)) with h | h
        · exfalso
          have := ha1 x hx
          omega
        · exact h
      · intro hx
        rcases List.mem_cons.mp ((hmem x).mpr (List.mem_cons_of_mem _ hx)) with h | h
        · exfalso
          have := hb2 x hx
          omega
        · exact h)
    rw [htail]

/-- Permuting the log's entries leaves the completed-date extraction
unchanged: the error condition and the member set are order-free, and
the sorted representation is canonical. -/
theorem datesCompleted_perm (log1 log2 : HabitLog) (habit : String)
    (hperm : log1.Perm log2) :
    datesCompleted log1 habit = datesCompleted log2 habit := by
  cases hdc1 : datesCompleted log1 habit with
  | error e =>
    cases e
    obtain ⟨p, hp, h3, h4⟩ := (datesCompleted_error log1 habit).mp hdc1
    exact ((datesCompleted_error log2 habit).mpr ⟨p, hperm.mem_iff.mp hp, h3, h4⟩).symm
  | ok S1 =>
    cases hdc2 : datesCompleted log2 habit with
    | error e =>
      cases e
      obtain ⟨p, hp, h3, h4⟩ := (datesCompleted_error log2 habit).mp hdc2
      have h5 := (datesCompleted_error log1 habit).mpr ⟨p, hperm.mem_iff.mpr hp, h3, h4⟩
      rw [hdc1] at h5
      exact Except.noConfusion h5
    | ok S2 =>
      have hs1 := datesCompleted_sorted log1 habit S1 hdc1
      have hs2 := datesCompleted_sorted log2 habit S2 hdc2
      have hmm : ∀ x, x ∈ S1 ↔ x ∈ S2 := by
        intro x
        rw [datesCompleted_mem log1 habit S1 hdc1 x,
          datesCompleted_mem log2 habit S2 hdc2 x]
        constructor
        · rintro ⟨p, hp, h3, h4⟩
          exact ⟨p, hperm.mem_iff.mp hp, h3, h4⟩
        · rintro ⟨p, hp, h3, h4⟩
          exact ⟨p, hperm.mem_iff.mpr hp, h3, h4⟩
      rw [sorted_eq_of_mem_iff S1 S2 hs1 hs2 hmm]

/-! ## Record entries mapping the habit to `False` -/

theorem lookup_cons_eq_key (k : String) (v : Bool) (rest : DayRecord) :
    List.lookup k ((k, v) :: rest) = some v := by
  rw [List.lookup_cons, beq_self_eq_true]

theorem lookup_cons_ne_key (a k : String) (v : Bool) (rest : DayRecord) (h : a ≠ k) :
    List.lookup a ((k, v) :: rest) = List.lookup a rest := by
  rw [List.lookup_cons, beq_eq_false_iff_ne.mpr h]

theorem lookup_none_of_not_mem (habit : String) (l : DayRecord)
    (h : habit ∉ l.map Prod.fst) : List.lookup habit l = none := by
  induction l with
  | nil => rfl
  | cons q rest ih =>
    obtain ⟨k, v⟩ := q
    simp only [List.map_cons, List.mem_cons, not_or] at h
    rw [lookup_cons_ne_key habit k v rest h.1]
    exact ih h.2

/-- On a record with distinct keys, removing the entries that map the
habit to `False` does not change the habit's truthiness. -/
theorem truthyGet_dropFalse (data : DayRecord) (habit : String)
    (hnd : (data.map Prod.fst).Nodup) :
    truthyGet (data.filter (fun q => !(q.1 == habit && !q.2))) habit =
      truthyGet data habit := by
  induction data with
  | nil => rfl
  | cons q rest ih =>
    obtain ⟨k, v⟩ := q
    rw [List.map_cons, List.nodup_cons] at hnd
    obtain ⟨hknot, hndrest⟩ := hnd
    rw [List.filter_cons]
    by_cases hk : k = habit
    · subst hk
      cases v with
      | true =>
        rw [if_pos (by simp)]
        rw [truthyGet, truthyGet, lookup_cons_eq_key, lookup_cons_eq_key]
      | false =>
        rw [if_neg (by simp)]
        rw [truthyGet, truthyGet, lookup_cons_eq_key]
        have hsub : k ∉ (rest.filter (fun q => !(q.1 == k && !q.2))).map Prod.fst := by
          intro hmem
          obtain ⟨q, hq, hq2⟩ := List.mem_map.mp hmem
          exact hknot (List.mem_map.mpr ⟨q, (List.mem_filter.mp hq).1, hq2⟩)
        rw [lookup_none_of_not_mem k _ hsub]
        rfl
    · rw [if_pos (by simp [hk])]
      rw [truthyGet, truthyGet,
        lookup_cons_ne_key habit k v _ (fun he => hk he.symm),
        lookup_cons_ne_key habit k v rest (fun he => hk he.symm)]
      rw [truthyGet, truthyGet] at ih
      exact ih hndrest

theorem dropFalse_datesCompleted (log : HabitLog) (habit : String)
    (hnd : ∀ p ∈ log, (p.2.map Prod.fst).Nodup) :
    datesCompleted (dropFalse habit log) habit = datesCompleted log habit := by
  induction log with
  | nil => rfl
  | cons p rest ih =>
    obtain ⟨date, data⟩ := p
    have hh := hnd (date, data) (List.mem_cons_self _ _)
    have ihh := ih (fun q hq => hnd q (List.mem_cons_of_mem _ hq))
    show datesCompleted
        ((date, data.filter (fun q => !(q.1 == habit && !q.2))) :: dropFalse habit rest)
        habit = _
    rw [datesCompleted, datesCompleted, ihh, truthyGet_dropFalse data habit hh]

/-! ## The claims -/

/-- C1: for every habit log, habit name and reference day, the
`longest_streak` component of a successful result equals the maximum
length, over all dates, of a maximal run of consecutive calendar days on
which the habit was marked complete; a gap of two or more days breaks a
run. -/
theorem C1_longest_streak_spec (log : HabitLog) (habit : String) (today : ℤ)
    (r : ℕ × ℕ) (h : calculate_streaks log habit today = Except.ok r) :
    longestCorrect (markedComplete log habit) r.2 := by
  obtain ⟨S, hdc, hcase⟩ := calculate_streaks_cases log habit today r h
  have hmem := datesCompleted_mem log habit S hdc
  have hsort := datesCompleted_sorted log habit S hdc
  rcases hcase with ⟨hSnil, hr⟩ | ⟨hSne, hlong, _⟩
  · subst hSnil
    have hnone : ∀ x, ¬ markedComplete log habit x := fun x hx =>
      absurd ((hmem x).mpr hx) (List.not_mem_nil x)
    refine ⟨?_, ?_, ?_⟩
    · intro a b hrun
      exact absurd (hrun.2.1 a le_rfl hrun.1) (hnone a)
    · rintro ⟨x, hx⟩
      exact absurd hx (hnone x)
    · intro _
      rw [hr]
  · rw [hlong, longestStreakOf_eq_maxOver S hsort]
    refine ⟨?_, ?_, ?_⟩
    · intro a b hrun
      obtain ⟨hab, hall, hbot, _⟩ := hrun
      have hallS : ∀ x, a ≤ x → x ≤ b → x ∈ S :=
        fun x h1 h2 => (hmem x).mpr (hall x h1 h2)
      have hbotS : (a - 1) ∉ S := fun hmem2 => hbot ((hmem _).mp hmem2)
      have hcb := countBack_of_run S a (b - a).toNat b (by omega) hallS hbotS
      have hle := le_maxOver S (countBack S) b (hallS b hab le_rfl)
      omega
    · intro _
      obtain ⟨a, b, hab, hall, hbot, htop, hlen⟩ := maxOver_gives_maximal_run S hSne
      refine ⟨a, b, ⟨hab, ?_, ?_, ?_⟩, hlen⟩
      · exact fun x h1 h2 => (hmem x).mp (hall x h1 h2)
      · exact fun hP => hbot ((hmem _).mpr hP)
      · exact fun hP => htop ((hmem _).mpr hP)
    · intro hnone
      exfalso
      cases S with
      | nil => exact hSne rfl
      | cons d0 rest =>
        exact hnone ⟨d0, (hmem d0).mp (List.mem_cons_self _ _)⟩

theorem C1_witness :
    calculate_streaks [("2024-03-05", [("run", true)])] "run" (toOrdinal 2024 3 5) =
        Except.ok (1, 1) ∧
      longestCorrect (markedComplete [("2024-03-05", [("run", true)])] "run") 1 :=
  ⟨by rfl,
    C1_longest_streak_spec [("2024-03-05", [("run", true)])] "run"
      (toOrdinal 2024 3 5) (1, 1) (by rfl)⟩

/-- C2: the `current_streak` component of a successful result obeys the
spec's prescription: counted back from `today` when today is marked
complete, from `today - 1` when only yesterday is, and `0` when neither
is, regardless of older history. -/
theorem C2_current_streak_spec (log : HabitLog) (habit : String) (today : ℤ)
    (r : ℕ × ℕ) (h : calculate_streaks log habit today = Except.ok r) :
    currentCorrect (markedComplete log habit) today r.1 := by
  obtain ⟨S, hdc, hcase⟩ := calculate_streaks_cases log habit today r h
  have hmem := datesCompleted_mem log habit S hdc
  rcases hcase with ⟨hSnil, hr⟩ | ⟨hSne, _, hcur⟩
  · subst hSnil
    have hnone : ∀ x, ¬ markedComplete log habit x := fun x hx =>
      absurd ((hmem x).mpr hx) (List.not_mem_nil x)
    refine ⟨?_, ?_, ?_⟩
    · intro hP
      exact absurd hP (hnone today)
    · intro _ hP
      exact absurd hP (hnone (today - 1))
    · intro _ _
      rw [hr]
  · rcases hcur with ⟨ht, hr1⟩ | ⟨ht, hy, hr1⟩ | ⟨ht, hy, hr1⟩
    · obtain ⟨hrun, hbot⟩ := countBack_run S (countBack S today) today rfl
      refine ⟨?_, ?_, ?_⟩
      · intro _
        rw [hr1]
        exact ⟨fun j hj => (hmem _).mp (hrun j hj), fun hP => hbot ((hmem _).mpr hP)⟩
      · intro hP _
        exact absurd ((hmem today).mp ht) hP
      · intro hP _
        exact absurd ((hmem today).mp ht) hP
    · obtain ⟨hrun, hbot⟩ := countBack_run S (countBack S (today - 1)) (today - 1) rfl
      refine ⟨?_, ?_, ?_⟩
      · intro hP
        exact absurd ((hmem today).mpr hP) ht
      · intro _ _
        rw [hr1]
        exact ⟨fun j hj => (hmem _).mp (hrun j hj), fun hP => hbot ((hmem _).mpr hP)⟩
      · intro _ hP
        exact absurd ((hmem (today - 1)).mp hy) hP
    · refine ⟨?_, ?_, ?_⟩
      · intro hP
        exact absurd ((hmem today).mpr hP) ht
      · intro _ hP
        exact absurd ((hmem (today - 1)).mpr hP) hy
      · intro _ _
        exact hr1

theorem C2_witness :
    calculate_streaks [("2024-04-01", [("med", true)]), ("2024-04-02", [("med", true)])]
        "med" (toOrdinal 2024 4 2) = Except.ok (2, 2) ∧
      currentCorrect
        (markedComplete [("2024-04-01", [("med", true)]), ("2024-04-02", [("med", true)])]
          "med") (toOrdinal 2024 4 2) 2 :=
  ⟨by rfl,
    C2_current_streak_spec
      [("2024-04-01", [("med", true)]), ("2024-04-02", [("med", true)])] "med"
      (toOrdinal 2024 4 2) (2, 2) (by rfl)⟩

/-- C3 counterexample: a log containing a date key that is not parseable
on which the calculator nevertheless succeeds instead of raising, since
the malformed entry does not mark the habit complete. -/
theorem C3_counterexample :
    parseDate "not-a-date" = none ∧
      calculate_streaks [("not-a-date", [("read", false)])] "read" 0 =
        Except.ok (0, 0) :=
  ⟨by rfl, by rfl⟩

/-- C3 (amended): the calculator raises `FormatError` exactly when some
entry that marks the habit complete has an unparseable date key; every
other log yields a numeric result, and this is the only error. -/
theorem C3_error_iff (log : HabitLog) (habit : String) (today : ℤ) :
    calculate_streaks log habit today = Except.error FormatError.malformedDate ↔
      ∃ p ∈ log, truthyGet p.2 habit = true ∧ parseDate p.1 = none := by
  rw [calculate_streaks_eq_core]
  cases hdc : datesCompleted log habit with
  | error e =>
    cases e
    constructor
    · intro _
      exact (datesCompleted_error log habit).mp hdc
    · intro _
      rfl
  | ok S =>
    have hnot : ¬ ∃ p ∈ log, truthyGet p.2 habit = true ∧ parseDate p.1 = none := by
      intro hcon
      have h2 := (datesCompleted_error log habit).mpr hcon
      rw [hdc] at h2
      exact Except.noConfusion h2
    constructor
    · intro hcon
      exfalso
      rw [streaksFromDates] at hcon
      simp only at hcon
      by_cases hS : S = []
      · rw [if_pos hS] at hcon
        exact Except.noConfusion hcon
      · rw [if_neg hS] at hcon
        by_cases ht : today ∈ S
        · rw [if_pos ht] at hcon
          exact Except.noConfusion hcon
        · rw [if_neg ht] at hcon
          by_cases hy : today - 1 ∈ S
          · rw [if_pos hy] at hcon
            exact Except.noConfusion hcon
          · rw [if_neg hy] at hcon
            exact Except.noConfusion hcon
    · intro hcon
      exact absurd hcon hnot

/-- C4: the concrete scenario of the spec: completions on 2024-01-01,
2024-01-02 and 2024-01-04 of habit "read", evaluated on 2024-01-04,
give current streak 1 and longest streak 2. -/
theorem C4_scenario :
    calculate_streaks
      [("2024-01-01", [("read", true)]), ("2024-01-02", [("read", true)]),
        ("2024-01-04", [("read", true)])] "read" (toOrdinal 2024 1 4) =
      Except.ok (1, 2) := by rfl

/-- C5: the calculator returns `(0, 0)` on the empty log and, more
generally, on every log in which the habit is never marked `True`. -/
theorem C5_never_marked (log : HabitLog) (habit : String) (today : ℤ)
    (h : ∀ p ∈ log, truthyGet p.2 habit = false) :
    calculate_streaks log habit today = Except.ok (0, 0) := by
  have hdc : datesCompleted log habit = Except.ok [] := by
    induction log with
    | nil => rfl
    | cons p rest ih =>
      obtain ⟨date, data⟩ := p
      have hfalse := h (date, data) (List.mem_cons_self _ _)
      rw [datesCompleted, ih (fun q hq => h q (List.mem_cons_of_mem _ hq))]
      simp only
      rw [if_neg (by simp [hfalse])]
  rw [calculate_streaks_eq_core, hdc]
  rfl

theorem C5_witness :
    (∀ p ∈ ([("2024-01-01", [("read", false)])] : HabitLog),
        truthyGet p.2 "read" = false) ∧
      calculate_streaks [("2024-01-01", [("read", false)])] "read" 0 =
        Except.ok (0, 0) :=
  ⟨by decide, C5_never_marked _ _ _ (by decide)⟩

/-- C6: a record mapping the habit to `False` is treated exactly like
the habit being absent from that day's record: removing every such entry
leaves the result unchanged (records are dicts, so their keys are
pairwise distinct). -/
theorem C6_false_is_absent (log : HabitLog) (habit : String) (today : ℤ)
    (hnd : ∀ p ∈ log, (p.2.map Prod.fst).Nodup) :
    calculate_streaks (dropFalse habit log) habit today =
      calculate_streaks log habit today := by
  rw [calculate_streaks_eq_core, calculate_streaks_eq_core,
    dropFalse_datesCompleted log habit hnd]

theorem C6_witness :
    (∀ p ∈ ([("2024-05-01", [("a", false), ("b", true)])] : HabitLog),
        (p.2.map Prod.fst).Nodup) ∧
      calculate_streaks (dropFalse "a" [("2024-05-01", [("a", false), ("b", true)])])
          "a" 0 =
        calculate_streaks [("2024-05-01", [("a", false), ("b", true)])] "a" 0 :=
  ⟨by decide, C6_false_is_absent _ _ _ (by decide)⟩

/-- C7: the result does not depend on the iteration order of the log's
entries: permuted logs give identical results. -/
theorem C7_order_independent (log1 log2 : HabitLog) (habit : String) (today : ℤ)
    (hperm : log1.Perm log2) :
    calculate_streaks log1 habit today = calculate_streaks log2 habit today := by
  rw [calculate_streaks_eq_core, calculate_streaks_eq_core,
    datesCompleted_perm log1 log2 habit hperm]

theorem C7_witness :
    List.Perm [("2024-01-01", [("x", true)]), ("2024-01-03", [("x", true)])]
        [("2024-01-03", [("x", true)]), ("2024-01-01", [("x", true)])] ∧
      calculate_streaks
          [("2024-01-01", [("x", true)]), ("2024-01-03", [("x", true)])] "x" 0 =
        calculate_streaks
          [("2024-01-03", [("x", true)]), ("2024-01-01", [("x", true)])] "x" 0 :=
  ⟨by decide, C7_order_independent _ _ _ _ (by decide)⟩

/-- C8: whenever the calculator returns a result, the current streak is
at most the longest streak. -/
theorem C8_current_le_longest (log : HabitLog) (habit : String) (today : ℤ)
    (r : ℕ × ℕ) (h : calculate_streaks log habit today = Except.ok r) :
    r.1 ≤ r.2 := by
  obtain ⟨S, hdc, hcase⟩ := calculate_streaks_cases log habit today r h
  have hsort := datesCompleted_sorted log habit S hdc
  rcases hcase with ⟨_, hr⟩ | ⟨_, hlong, hcur⟩
  · rw [hr]
  · rw [hlong, longestStreakOf_eq_maxOver S hsort]
    rcases hcur with ⟨ht, hr1⟩ | ⟨_, hy, hr1⟩ | ⟨_, _, hr1⟩
    · rw [hr1]
      exact le_maxOver S (countBack S) today ht
    · rw [hr1]
      exact le_maxOver S (countBack S) (today - 1) hy
    · rw [hr1]
      exact Nat.zero_le _

theorem C8_witness :
    calculate_streaks [("2024-06-01", [("w", true)])] "w" (toOrdinal 2024 6 1) =
        Except.ok (1, 1) ∧ (1 : ℕ) ≤ 1 :=
  ⟨by rfl,
    C8_current_le_longest [("2024-06-01", [("w", true)])] "w" (toOrdinal 2024 6 1)
      (1, 1) (by rfl)⟩

/-- C9: an entry whose date key is unparseable but whose record does not
mark the habit complete is silently skipped: the result equals the
result on the log with that entry removed, with no error raised. -/
theorem C9_malformed_unmarked_skipped (l1 l2 : HabitLog) (date : String)
    (data : DayRecord) (habit : String) (today : ℤ)
    (_hbad : parseDate date = none) (hunmarked : truthyGet data habit = false) :
    calculate_streaks (l1 ++ (date, data) :: l2) habit today =
      calculate_streaks (l1 ++ l2) habit today := by
  rw [calculate_streaks_eq_core, calculate_streaks_eq_core,
    datesCompleted_skip l1 l2 date data habit hunmarked]

theorem C9_witness :
    parseDate "garbage" = none ∧ truthyGet [("z", false)] "z" = false ∧
      calculate_streaks
          [("garbage", [("z", false)]), ("2024-07-01", [("z", true)])] "z" 0 =
        calculate_streaks [("2024-07-01", [("z", true)])] "z" 0 :=
  ⟨by rfl, by rfl,
    C9_malformed_unmarked_skipped [] [("2024-07-01", [("z", true)])] "garbage"
      [("z", false)] "z" 0 (by rfl) (by rfl)⟩

/-- C10: a returned longest streak is at least 1 exactly when the habit
is marked complete somewhere in the log. -/
theorem C10_longest_pos_iff (log : HabitLog) (habit : String) (today : ℤ)
    (r : ℕ × ℕ) (h : calculate_streaks log habit today = Except.ok r) :
    1 ≤ r.2 ↔ ∃ p ∈ log, truthyGet p.2 habit = true := by
  obtain ⟨S, hdc, hcase⟩ := calculate_streaks_cases log habit today r h
  have hmem := datesCompleted_mem log habit S hdc
  rcases hcase with ⟨hSnil, hr⟩ | ⟨hSne, hlong, _⟩
  · subst hSnil
    rw [hr]
    constructor
    · intro h10
      exact absurd h10 (by decide)
    · rintro ⟨p, hp, htr⟩
      exfalso
      cases hpd : parseDate p.1 with
      | some x =>
        exact List.not_mem_nil x ((hmem x).mpr ⟨p, hp, htr, hpd⟩)
      | none =>
        have herr := (datesCompleted_error log habit).mpr ⟨p, hp, htr, hpd⟩
        rw [hdc] at herr
        exact Except.noConfusion herr
  · constructor
    · intro _
      cases S with
      | nil => exact absurd rfl hSne
      | cons d0 rest =>
        obtain ⟨p, hp, htr, _⟩ := (hmem d0).mp (List.mem_cons_self _ _)
        exact ⟨p, hp, htr⟩
    · intro _
      rw [hlong]
      exact longestStreakOf_pos S hSne

theorem C10_witness :
    calculate_streaks [("2024-08-01", [("q", true)])] "q" 0 = Except.ok (0, 1) ∧
      ((1 : ℕ) ≤ 1 ↔ ∃ p ∈ ([("2024-08-01", [("q", true)])] : HabitLog),
        truthyGet p.2 "q" = true) :=
  ⟨by rfl,
    C10_longest_pos_iff [("2024-08-01", [("q", true)])] "q" 0 (0, 1) (by rfl)⟩

end HabitApp
